import Mathlib

/-!
Shallow embedding of the Git working-copy state synchronizer of this
repository (the `GitStore` / `AppStore` state-management layer), together
with theorems settling the specification claims about it.

Conventions of the embedding:
* TypeScript `async` methods become pure Lean functions; each `await` of an
  external Git invocation is represented by passing the invocation's result
  in as an explicit argument (an `Except String _` when the call can throw,
  mirroring `performFailableOperation`), and each suspension point at which
  the surrounding store state may have changed is represented by passing the
  post-suspension state in as a separate argument.
* Mutations of a store object become functional updates of an explicit state
  record; calls that only perform external effects (`updateRef`,
  `updatePushPullFetchProgress`) are modelled by returning the list of
  performed calls.
* `Map` and `Set` fields become association lists and string lists.
-/

namespace IWork

/-- A commit as used by the history cache and the tip resolver
(`models/commit`): identified by its immutable SHA. Fields other than the
SHA (summary, body, author, parents, ...) are never inspected by the
operations embedded here and are omitted from the projection. -/
structure Commit where
  sha : String
deriving DecidableEq, Repr

/-- `IAheadBehind`: commit counts relative to an upstream. -/
structure AheadBehind where
  ahead : Nat
  behind : Nat
deriving DecidableEq, Repr

/-- `BranchType` from `models/branch`. -/
inductive BranchType
  | local
  | remote
deriving DecidableEq, Repr

/-- `Branch` from `models/branch`: name, optional upstream tracking ref,
tip commit and type. -/
structure Branch where
  name : String
  upstream : Option String
  tip : Commit
  type : BranchType
deriving DecidableEq, Repr

/-- `Tip` from `models/tip`: the tagged union
`Unknown | Unborn{ref} | Detached{sha} | Valid{branch}`. -/
inductive Tip
  | unknown
  | unborn (ref : String)
  | detached (currentSha : String)
  | valid (branch : Branch)
deriving DecidableEq, Repr

/-- `ErrorWithMetadata` as produced by `GitStore.performFailableOperation`:
the underlying error together with the repository it occurred in. The
repository is identified by its working-directory path. -/
structure ErrorWithMetadata where
  error : String
  repository : String
deriving DecidableEq, Repr

/-- The result of a `getStatus` call, projected to the fields read by
`GitStore.loadStatus`. -/
structure IStatusResult where
  currentBranch : Option String
  currentUpstreamBranch : Option String
  currentTip : Option String
  branchAheadBehind : Option AheadBehind
deriving DecidableEq, Repr

/-- The request key guarding history loads in `GitStore`. -/
def LoadingHistoryRequestKey : String := "history"

/-- The mutable fields of a `GitStore` instance touched by the history and
status operations, as an explicit state record. `commitLookup` is the
SHA-to-commit map, `requestsInFight` the set of in-flight request keys, and
`emittedErrors` records the errors emitted through `emitError` (most recent
last). -/
structure GitStoreState where
  repository : String
  commitLookup : List (String × Commit)
  history : List String
  requestsInFight : List String
  tip : Tip
  aheadBehind : Option AheadBehind
  emittedErrors : List ErrorWithMetadata
deriving DecidableEq, Repr

namespace GitStoreState

/-- `Map.set`: bind `sha` to `commit`, shadowing any previous binding. -/
def setCommit (st : GitStoreState) (sha : String) (c : Commit) : GitStoreState :=
  { st with commitLookup := (sha, c) :: st.commitLookup.filter (fun p => p.1 ≠ sha) }

/-- `Map.get` on the commit lookup. -/
def lookupCommit (st : GitStoreState) (sha : String) : Option Commit :=
  (st.commitLookup.find? (fun p => p.1 = sha)).map Prod.snd

/-- `Set.has` on the in-flight request keys. -/
def hasRequest (st : GitStoreState) (key : String) : Bool :=
  st.requestsInFight.contains key

/-- `Set.add` on the in-flight request keys. -/
def addRequest (st : GitStoreState) (key : String) : GitStoreState :=
  { st with requestsInFight := st.requestsInFight.insert key }

/-- `Set.delete` on the in-flight request keys. -/
def deleteRequest (st : GitStoreState) (key : String) : GitStoreState :=
  { st with requestsInFight := st.requestsInFight.erase key }

end GitStoreState

/-- `GitStore.performFailableOperation`: run an operation that may throw.
On success the result is returned; on an error the error is wrapped in
`ErrorWithMetadata` carrying the repository, emitted, and `undefined`
(here `none`) is returned. -/
def performFailableOperation (st : GitStoreState) (res : Except String α) :
    GitStoreState × Option α :=
  match res with
  | .ok a => (st, some a)
  | .error e =>
    ({ st with emittedErrors := st.emittedErrors ++ [⟨e, st.repository⟩] }, none)

/-- `GitStore.storeCommits`: record each commit in the SHA lookup. -/
def storeCommits (st : GitStoreState) (commits : List Commit) : GitStoreState :=
  commits.foldl (fun s c => s.setCommit c.sha c) st

/-- `GitStore.loadHistory`. The result of the awaited
`getCommits(repository, 'HEAD', CommitBatchSize)` call is the explicit
`getCommitsRes` argument. -/
def loadHistory (st : GitStoreState) (getCommitsRes : Except String (List Commit)) :
    GitStoreState :=
  if st.hasRequest LoadingHistoryRequestKey then st
  else
    let st := st.addRequest LoadingHistoryRequestKey
    match (performFailableOperation st getCommitsRes : GitStoreState × Option (List Commit)) with
    | (st, none) => st
    | (st, some commits) =>
      let (commits, existingHistory) : List Commit × List String :=
        match st.history with
        | [] => (commits, st.history)
        | mostRecent :: _ =>
          match commits.findIdx? (fun c => c.sha == mostRecent) with
          | some index => (commits.take index, st.history)
          | none => (commits, [])
      let st := { st with history := commits.map (·.sha) ++ existingHistory }
      let st := storeCommits st commits
      st.deleteRequest LoadingHistoryRequestKey

/-- `GitStore.reconcileHistory`: splice the commits between the new HEAD and
`mergeBase` (the awaited `getCommits` over `revRange('HEAD', mergeBase)`,
passed as `getCommitsRes`) in before the point of the cached history that
matches `mergeBase`. -/
def reconcileHistory (st : GitStoreState) (mergeBase : String)
    (getCommitsRes : Except String (List Commit)) : GitStoreState :=
  if st.history.length == 0 then st
  else if st.hasRequest LoadingHistoryRequestKey then st
  else
    let st := st.addRequest LoadingHistoryRequestKey
    match (performFailableOperation st getCommitsRes : GitStoreState × Option (List Commit)) with
    | (st, none) => st
    | (st, some commits) =>
      let st :=
        match st.history.findIdx? (fun c => c == mergeBase) with
        | some index =>
          { st with history := commits.map (·.sha) ++ st.history.drop index }
        | none => st
      let st := storeCommits st commits
      st.deleteRequest LoadingHistoryRequestKey

/-- `GitStore.loadNextHistoryBatch`: fetch the batch starting before the
oldest loaded SHA and append it. -/
def loadNextHistoryBatch (st : GitStoreState)
    (getCommitsRes : Except String (List Commit)) : GitStoreState :=
  if st.hasRequest LoadingHistoryRequestKey then st
  else
    match st.history.getLast? with
    | none => st
    | some lastSHA =>
      let requestKey := "history/" ++ lastSHA
      if st.hasRequest requestKey then st
      else
        let st := st.addRequest requestKey
        match (performFailableOperation st getCommitsRes : GitStoreState × Option (List Commit)) with
        | (st, none) => st
        | (st, some commits) =>
          let st := { st with history := st.history ++ commits.map (·.sha) }
          let st := storeCommits st commits
          st.deleteRequest requestKey

/-- `GitStore.loadStatus`. The awaited `getStatus` call is `statusRes` and
the awaited `getCommit(repository, currentTip)` call (made only when the tip
commit is not already cached) is `getCommitRes`; both go through
`performFailableOperation`. A missing branch tip commit makes the method
throw (`Could not load commit ...`), hence the `Except` result. -/
def loadStatus (st : GitStoreState) (statusRes : Except String IStatusResult)
    (getCommitRes : Except String Commit) :
    Except String (GitStoreState × Option IStatusResult) :=
  match (performFailableOperation st statusRes :
      GitStoreState × Option IStatusResult) with
  | (st, none) => .ok (st, none)
  | (st, some status) =>
    let st := { st with aheadBehind := status.branchAheadBehind }
    match status.currentBranch, status.currentTip with
    | some currentBranch, some currentTip =>
      let (st, branchTipCommit) : GitStoreState × Option Commit :=
        match st.lookupCommit currentTip with
        | some cached => (st, some cached)
        | none => performFailableOperation st getCommitRes
      match branchTipCommit with
      | none => .error ("Could not load commit " ++ currentTip)
      | some c =>
        .ok ({ st with
                tip := .valid ⟨currentBranch, status.currentUpstreamBranch, c,
                               .local⟩ }, some status)
    | none, some currentTip =>
      .ok ({ st with tip := .detached currentTip }, some status)
    | some currentBranch, none =>
      .ok ({ st with tip := .unborn currentBranch }, some status)
    | none, none =>
      .ok ({ st with tip := .unknown }, some status)

/-- A history-cache operation on a `GitStore` instance, carrying the result
of its underlying `getCommits` invocation. -/
inductive HistoryOp
  | load (getCommitsRes : Except String (List Commit))
  | reconcile (mergeBase : String) (getCommitsRes : Except String (List Commit))
  | nextBatch (getCommitsRes : Except String (List Commit))

/-- Run one history-cache operation. -/
def applyHistoryOp (st : GitStoreState) : HistoryOp → GitStoreState
  | .load res => loadHistory st res
  | .reconcile mergeBase res => reconcileHistory st mergeBase res
  | .nextBatch res => loadNextHistoryBatch st res

/-- Run a sequence of history-cache operations in order. -/
def runHistoryOps (st : GitStoreState) (ops : List HistoryOp) : GitStoreState :=
  ops.foldl applyHistoryOp st

/-- Modelled from the spec: a line of a text diff (`models/diff` is not part
of the extracted sources). The only property of a line that
`updateChangesDiffForCurrentSelection` inspects is whether it is includeable
(an added or removed line, selectable for a partial commit). -/
structure DiffLine where
  isIncludeable : Bool
deriving DecidableEq, Repr

/-- Modelled from the spec: a hunk of a text diff, with the unified-diff
offset of its first line. -/
structure DiffHunk where
  unifiedDiffStart : Nat
  lines : List DiffLine
deriving DecidableEq, Repr

/-- Modelled from the spec: a working-directory diff. Only a text diff
carries hunks with selectable lines; images, binaries and oversized diffs
carry none. -/
inductive Diff
  | text (hunks : List DiffHunk)
  | other
deriving DecidableEq, Repr

/-- Modelled from the spec: a `DiffSelection` is a per-line set of selected
lines ("all", "none", or a partial bitset are its derived views). -/
structure DiffSelection where
  selectedLines : List Nat
deriving DecidableEq, Repr

/-- Modelled from the spec: restrict a selection to the lines that are still
selectable, so that a previously selected line which no longer exists or has
become a context line is no longer selected. -/
def DiffSelection.withSelectableLines (sel : DiffSelection)
    (selectableLines : List Nat) : DiffSelection :=
  ⟨sel.selectedLines.filter (fun l => selectableLines.contains l)⟩

/-- Modelled from the spec: a `WorkingDirectoryFileChange` (`models/status`
is not part of the extracted sources), projected to the fields used by the
diff-loading path: its id, path and diff selection. -/
structure WorkingDirectoryFileChange where
  id : String
  path : String
  selection : DiffSelection
deriving DecidableEq, Repr

/-- Modelled from the spec: replace a file's selection. -/
def WorkingDirectoryFileChange.withSelection (f : WorkingDirectoryFileChange)
    (selection : DiffSelection) : WorkingDirectoryFileChange :=
  { f with selection := selection }

/-- Modelled from the spec: the ordered list of file changes of the working
directory. -/
structure WorkingDirectoryStatus where
  files : List WorkingDirectoryFileChange
deriving DecidableEq, Repr

/-- Modelled from the spec: build a status from a file list. -/
def WorkingDirectoryStatus.fromFiles (files : List WorkingDirectoryFileChange) :
    WorkingDirectoryStatus :=
  ⟨files⟩

/-- Modelled from the spec: find a file by its id. -/
def WorkingDirectoryStatus.findFileWithID (s : WorkingDirectoryStatus)
    (id : String) : Option WorkingDirectoryFileChange :=
  s.files.find? (fun f => f.id == id)

/-- `IChangesState`, projected to the fields used by the diff-loading
path. -/
structure ChangesState where
  workingDirectory : WorkingDirectoryStatus
  selectedFileIDs : List String
  diff : Option Diff
deriving DecidableEq, Repr

/-- `IBranchesState`, projected to the fields used by fast-forward
reconciliation. -/
structure BranchesState where
  tip : Tip
  defaultBranch : Option Branch
  allBranches : List Branch
deriving DecidableEq, Repr

/-- `IRepositoryState`, projected to the fields used by the embedded
`AppStore` operations. -/
structure IRepositoryState where
  changesState : ChangesState
  branchesState : BranchesState
  isPushPullFetchInProgress : Bool
deriving DecidableEq, Repr

/-- A repository: absolute working-directory path plus a database id.
`hash` is modelled from the spec ("looked up by a stable hash of path+id";
`models/repository` is not part of the extracted sources). -/
structure Repository where
  path : String
  id : Nat
deriving DecidableEq, Repr

/-- Modelled from the spec: the stable per-repository lookup key. -/
def Repository.hash (r : Repository) : String :=
  toString r.id ++ "+" ++ r.path

/-- The `AppStore`'s per-repository state map
(`repositoryState = new Map<string, IRepositoryState>()`). -/
structure AppState where
  repositoryState : String → Option IRepositoryState

/-- `AppStore.getInitialRepositoryState`, projected to the embedded
fields. -/
def getInitialRepositoryState : IRepositoryState :=
  { changesState :=
      { workingDirectory := WorkingDirectoryStatus.fromFiles []
        selectedFileIDs := []
        diff := none }
    branchesState :=
      { tip := .unknown
        defaultBranch := none
        allBranches := [] }
    isPushPullFetchInProgress := false }

/-- `AppStore.getRepositoryState`: the stored state, or the initial state
when the repository has none yet. -/
def getRepositoryState (app : AppState) (repository : Repository) :
    IRepositoryState :=
  (app.repositoryState repository.hash).getD getInitialRepositoryState

/-- `AppStore.updateRepositoryState`: replace the repository's state with a
function of its current state. -/
def updateRepositoryState (app : AppState) (repository : Repository)
    (fn : IRepositoryState → IRepositoryState) : AppState :=
  ⟨fun h =>
    if h == repository.hash then some (fn (getRepositoryState app repository))
    else app.repositoryState h⟩

/-- The outcome of `AppStore.withPushPull`: the store state after the call,
the error the body threw (re-raised by the `try/finally`, if any), and
whether the body was invoked at all (every Git invocation of a push, pull
or fetch happens inside the body). -/
structure WithPushPullResult where
  state : AppState
  error : Option String
  fnInvoked : Bool

/-- `AppStore.withPushPull`: the per-repository mutual-exclusion gate for
push/pull/fetch. The body `fn` maps the store state at its start to the
store state at the point it returns or throws, paired with the error it
throws (`none` when it returns normally). -/
def withPushPull (app : AppState) (repository : Repository)
    (fn : AppState → AppState × Option String) : WithPushPullResult :=
  if (getRepositoryState app repository).isPushPullFetchInProgress then
    ⟨app, none, false⟩
  else
    let app := updateRepositoryState app repository
      (fun s => { s with isPushPullFetchInProgress := true })
    match fn app with
    | (app, error) =>
      let app := updateRepositoryState app repository
        (fun s => { s with isPushPullFetchInProgress := false })
      ⟨app, error, true⟩

/-- The selectable-line set computed by
`AppStore.updateChangesDiffForCurrentSelection` from a freshly loaded diff:
for a text diff, the unified-diff positions of every includeable line of
every hunk; no line is selectable otherwise. -/
def selectableLinesOfDiff (diff : Diff) : List Nat :=
  match diff with
  | .text hunks =>
    (hunks.map (fun h =>
      h.lines.enum.filterMap (fun p =>
        if p.2.isIncludeable then some (h.unifiedDiffStart + p.1) else none))).flatten
  | .other => []

/-- `AppStore.updateChangesDiffForCurrentSelection`, per repository. The
repository's state read synchronously before the load is `stateBeforeLoad`;
the awaited `getWorkingDirectoryDiff` call is the oracle
`getWorkingDirectoryDiff`; the repository's state re-read after the await
(which may differ, since the selection can change mid-flight) is
`stateAfterLoad`. The result is the repository's state after the method
completes. -/
def updateChangesDiffForCurrentSelection
    (stateBeforeLoad : IRepositoryState)
    (getWorkingDirectoryDiff : WorkingDirectoryFileChange → Diff)
    (stateAfterLoad : IRepositoryState) : IRepositoryState :=
  let changesStateBeforeLoad := stateBeforeLoad.changesState
  match changesStateBeforeLoad.selectedFileIDs with
  | [selectedFileIdBeforeLoad] =>
    match changesStateBeforeLoad.workingDirectory.findFileWithID
        selectedFileIdBeforeLoad with
    | none => stateBeforeLoad
    | some selectedFileBeforeLoad =>
      let diff := getWorkingDirectoryDiff selectedFileBeforeLoad
      let changesState := stateAfterLoad.changesState
      match changesState.selectedFileIDs with
      | [selectedFileID] =>
        if selectedFileID ≠ selectedFileIdBeforeLoad then stateAfterLoad
        else
          match changesState.workingDirectory.findFileWithID selectedFileID with
          | none => stateAfterLoad
          | some currentlySelectedFile =>
            let selectableLines := selectableLinesOfDiff diff
            let newSelection :=
              currentlySelectedFile.selection.withSelectableLines selectableLines
            let selectedFile := currentlySelectedFile.withSelection newSelection
            let updatedFiles := changesState.workingDirectory.files.map
              (fun f => if f.id == selectedFile.id then selectedFile else f)
            let workingDirectory := WorkingDirectoryStatus.fromFiles updatedFiles
            { stateAfterLoad with changesState :=
                { changesState with
                    diff := some diff
                    workingDirectory := workingDirectory } }
      | _ => stateAfterLoad
  | _ =>
    if changesStateBeforeLoad.diff.isSome then
      { stateBeforeLoad with changesState :=
          { changesStateBeforeLoad with diff := none } }
    else stateBeforeLoad

/-- `FastForwardBranchesThreshold`: the eligible-branch count at which the
per-branch fast-forward scan degrades to the default branch only. -/
def FastForwardBranchesThreshold : Nat := 20

/-- Modelled from the spec: `eligibleForFastForward` from `models/branch`
(not part of the extracted sources) — a branch is a candidate when it is a
local branch with an upstream that is not the currently checked-out
branch. -/
def eligibleForFastForward (branch : Branch)
    (currentBranchName : Option String) : Bool :=
  branch.type == .local && currentBranchName != some branch.name &&
    branch.upstream.isSome

/-- Modelled from the spec: `formatAsLocalRef` — the fully qualified ref of
a local branch name, as in `refs/heads/<name>`. -/
def formatAsLocalRef (name : String) : String :=
  "refs/heads/" ++ name

/-- One performed `updateRef` call, with its arguments in source order:
the ref to update, its expected old value, the new value it is set to, and
the reflog reason. -/
structure RefUpdate where
  ref : String
  oldValue : String
  newValue : String
  reason : String
deriving DecidableEq, Repr

/-- The current branch name as read by `AppStore.fastForwardBranches`:
the branch of a valid tip, otherwise `null`. -/
def currentBranchNameOf (tip : Tip) : Option String :=
  match tip with
  | .valid b => some b.name
  | _ => none

/-- The eligible-candidate list of `AppStore.fastForwardBranches` before
the threshold check: all branches passing `eligibleForFastForward`. -/
def eligibleBranchesIn (state : IRepositoryState) : List Branch :=
  state.branchesState.allBranches.filter
    (fun b => eligibleForFastForward b (currentBranchNameOf state.branchesState.tip))

/-- The `updateRef` call `AppStore.fastForwardBranches` performs for a
branch it fast-forwards: the local ref, from the branch's tip SHA, to the
upstream ref, with reason `pull: Fast-forward`. -/
def branchFastForwardUpdate (b : Branch) : RefUpdate :=
  ⟨formatAsLocalRef b.name, b.tip.sha, b.upstream.getD "", "pull: Fast-forward"⟩

/-- The per-branch loop of `AppStore.fastForwardBranches`: look up
ahead/behind for each branch (skipping it when the lookup fails) and
fast-forward exactly those with `ahead === 0 && behind > 0`. -/
def fastForwardScan (getBranchAheadBehind : Branch → Option AheadBehind)
    (branches : List Branch) : List RefUpdate :=
  branches.filterMap (fun branch =>
    match getBranchAheadBehind branch with
    | none => none
    | some ab =>
      if ab.ahead = 0 ∧ 0 < ab.behind then some (branchFastForwardUpdate branch)
      else none)

/-- `AppStore.fastForwardBranches`: the list of `updateRef` calls performed
for a repository state, given the `getBranchAheadBehind` oracle. -/
def fastForwardBranches (state : IRepositoryState)
    (getBranchAheadBehind : Branch → Option AheadBehind) : List RefUpdate :=
  let eligibleBranches := eligibleBranchesIn state
  let eligibleBranches :=
    if FastForwardBranchesThreshold ≤ eligibleBranches.length then
      match state.branchesState.defaultBranch with
      | some defaultBranch =>
        if eligibleForFastForward defaultBranch
            (currentBranchNameOf state.branchesState.tip) then [defaultBranch]
        else []
      | none => []
    else eligibleBranches
  fastForwardScan getBranchAheadBehind eligibleBranches

/-- `refreshWeight` of `AppStore.performPush`: the share left at the end
for refreshing. -/
def pushRefreshWeight : ℚ := 1/10

/-- The scale of `AppStore.performPush`, bringing the raw weights (push
2.5, fetch 1) to the `[0, 1 - refreshWeight]` range. -/
def pushScale : ℚ := (1 / (5/2 + 1)) * (1 - pushRefreshWeight)

/-- `pushWeight` of `AppStore.performPush` after scaling. -/
def pushPhaseWeight : ℚ := (5/2) * pushScale

/-- `fetchWeight` of `AppStore.performPush` after scaling. -/
def pushFetchPhaseWeight : ℚ := 1 * pushScale

/-- The sequence of progress values `AppStore.performPush` reports on the
valid-tip path, in order: the initial zero; one value per push progress
report (scaled by `pushWeight`); one per post-push fetch report (offset by
`pushWeight`, scaled by `fetchWeight`); the refresh start at
`pushWeight + fetchWeight`; and the fast-forward step at half the refresh
weight past it. `pushReports` and `fetchReports` are the `progress.value`
sequences the push and fetch phases deliver. -/
def performPushProgressValues (pushReports fetchReports : List ℚ) : List ℚ :=
  0 :: (pushReports.map (fun v => pushPhaseWeight * v)
    ++ fetchReports.map (fun v => pushPhaseWeight + v * pushFetchPhaseWeight)
    ++ [pushPhaseWeight + pushFetchPhaseWeight,
        (pushPhaseWeight + pushFetchPhaseWeight) + pushRefreshWeight * (1/2)])

namespace GitStoreState

theorem addRequest_history (st : GitStoreState) (k : String) :
    (st.addRequest k).history = st.history := rfl

theorem deleteRequest_history (st : GitStoreState) (k : String) :
    (st.deleteRequest k).history = st.history := rfl

theorem setCommit_history (st : GitStoreState) (sha : String) (c : Commit) :
    (st.setCommit sha c).history = st.history := rfl

theorem addRequest_hasRequest_self (st : GitStoreState) (k : String) :
    (st.addRequest k).hasRequest k = true := by
  simp only [addRequest, hasRequest, List.contains, List.insert]
  by_cases h : k ∈ st.requestsInFight <;> simp [h, List.elem_iff]

end GitStoreState

theorem storeCommits_history (st : GitStoreState) (commits : List Commit) :
    (storeCommits st commits).history = st.history := by
  induction commits generalizing st with
  | nil => rfl
  | cons c cs ih => simpa [storeCommits] using ih (st.setCommit c.sha c)

theorem storeCommits_requestsInFight (st : GitStoreState) (commits : List Commit) :
    (storeCommits st commits).requestsInFight = st.requestsInFight := by
  induction commits generalizing st with
  | nil => rfl
  | cons c cs ih => simpa [storeCommits] using ih (st.setCommit c.sha c)

theorem loadHistory_ok_history (st : GitStoreState) (commits : List Commit)
    (hkey : st.hasRequest LoadingHistoryRequestKey = false) :
    (loadHistory st (.ok commits)).history =
      (match st.history with
       | [] => commits.map (·.sha)
       | mostRecent :: _ =>
         match commits.findIdx? (fun c => c.sha == mostRecent) with
         | some index => (commits.take index).map (·.sha) ++ st.history
         | none => commits.map (·.sha)) := by
  unfold loadHistory
  rw [if_neg (by simp [hkey])]
  simp only [performFailableOperation]
  cases hh : st.history with
  | nil =>
    simp [storeCommits_history, GitStoreState.deleteRequest,
      GitStoreState.addRequest, hh]
  | cons mostRecent rest =>
    cases hidx : commits.findIdx? (fun c => c.sha == mostRecent) with
    | none =>
      simp [storeCommits_history, GitStoreState.deleteRequest,
        GitStoreState.addRequest, hh, hidx]
    | some index =>
      simp [storeCommits_history, GitStoreState.deleteRequest,
        GitStoreState.addRequest, hh, hidx]

/-- C1: with a non-empty cached history whose head is `mostRecent` and a
fresh window `commits` fetched from HEAD, `loadHistory` splices: if the old
head SHA first occurs at index `i` of the fresh window, the new history is
the first `i` fresh commits prepended to the entire old history; if the old
head SHA does not occur in the fresh window, the new history is exactly the
fresh window and the old history is discarded. -/
theorem loadHistory_splices_or_replaces
    (st : GitStoreState) (commits : List Commit)
    (mostRecent : String) (rest : List String)
    (hkey : st.hasRequest LoadingHistoryRequestKey = false)
    (hhist : st.history = mostRecent :: rest) :
    (∀ i, commits.findIdx? (fun c => c.sha == mostRecent) = some i →
      (loadHistory st (.ok commits)).history =
        (commits.take i).map (·.sha) ++ st.history)
    ∧ (commits.findIdx? (fun c => c.sha == mostRecent) = none →
      (loadHistory st (.ok commits)).history = commits.map (·.sha)) := by
  constructor
  · intro i hi
    rw [loadHistory_ok_history st commits hkey, hhist]
    simp [hi]
  · intro hnone
    rw [loadHistory_ok_history st commits hkey, hhist]
    simp [hnone]

/-- Witness for C1, on the spec's own example: cached history
`[c5,c4,c3,c2,c1]`, fresh window `[c7,c6,c5,c4,c3]`, spliced result
`[c7,c6,c5,c4,c3,c2,c1]`; and cached `[c5,c4,c3]` against a disjoint window
`[d9,d8,d7,d6]` replaced wholesale by `[d9,d8,d7,d6]`. -/
theorem loadHistory_splices_or_replaces_witness :
    (loadHistory ⟨"/repo", [], ["c5", "c4", "c3", "c2", "c1"], [], .unknown,
        none, []⟩
      (.ok [⟨"c7"⟩, ⟨"c6"⟩, ⟨"c5"⟩, ⟨"c4"⟩, ⟨"c3"⟩])).history =
      ["c7", "c6", "c5", "c4", "c3", "c2", "c1"]
    ∧ (loadHistory ⟨"/repo", [], ["c5", "c4", "c3"], [], .unknown, none, []⟩
      (.ok [⟨"d9"⟩, ⟨"d8"⟩, ⟨"d7"⟩, ⟨"d6"⟩])).history =
      ["d9", "d8", "d7", "d6"] := by
  constructor
  · have h := (loadHistory_splices_or_replaces
      ⟨"/repo", [], ["c5", "c4", "c3", "c2", "c1"], [], .unknown, none, []⟩
      [⟨"c7"⟩, ⟨"c6"⟩, ⟨"c5"⟩, ⟨"c4"⟩, ⟨"c3"⟩] "c5" ["c4", "c3", "c2", "c1"]
      (by decide) rfl).1 2 (by decide)
    rw [h]; rfl
  · have h := (loadHistory_splices_or_replaces
      ⟨"/repo", [], ["c5", "c4", "c3"], [], .unknown, none, []⟩
      [⟨"d9"⟩, ⟨"d8"⟩, ⟨"d7"⟩, ⟨"d6"⟩] "c5" ["c4", "c3"]
      (by decide) rfl).2 (by decide)
    rw [h]; rfl

/-- C7: when `mergeBase` does not occur in the cached history,
`reconcileHistory` never changes the history list — whatever the gate state
and whatever the underlying commit query returns. -/
theorem reconcileHistory_noop_of_mergeBase_absent
    (st : GitStoreState) (mergeBase : String)
    (res : Except String (List Commit))
    (hmb : mergeBase ∉ st.history) :
    (reconcileHistory st mergeBase res).history = st.history := by
  have hidx : st.history.findIdx? (fun c => c == mergeBase) = none :=
    List.findIdx?_eq_none_iff.mpr (fun x hx => by
      by_cases hxe : x = mergeBase
      · exact absurd (hxe ▸ hx) hmb
      · simp [hxe])
  unfold reconcileHistory
  by_cases h0 : st.history.length = 0
  · simp [h0]
  · rw [if_neg (by simp [h0])]
    by_cases h1 : st.hasRequest LoadingHistoryRequestKey
    · simp [h1]
    · rw [if_neg (by simp [h1])]
      cases res with
      | error e => simp [performFailableOperation, GitStoreState.addRequest]
      | ok commits =>
        simp [performFailableOperation, GitStoreState.addRequest, hidx,
          storeCommits_history, GitStoreState.deleteRequest]

/-- Witness for C7: reconciling `[c5,c4,c3]` against a merge base `zz` that
is not in the cached history leaves the history untouched. -/
theorem reconcileHistory_noop_of_mergeBase_absent_witness :
    (reconcileHistory ⟨"/repo", [], ["c5", "c4", "c3"], [], .unknown, none, []⟩
      "zz" (.ok [⟨"n2"⟩, ⟨"n1"⟩])).history = ["c5", "c4", "c3"] := by
  have h := reconcileHistory_noop_of_mergeBase_absent
    ⟨"/repo", [], ["c5", "c4", "c3"], [], .unknown, none, []⟩
    "zz" (.ok [⟨"n2"⟩, ⟨"n1"⟩]) (by decide)
  rw [h]

theorem applyHistoryOp_of_stuck (st : GitStoreState) (op : HistoryOp)
    (h : st.hasRequest LoadingHistoryRequestKey = true) :
    applyHistoryOp st op = st := by
  cases op with
  | load res => simp [applyHistoryOp, loadHistory, h]
  | reconcile mergeBase res => simp [applyHistoryOp, reconcileHistory, h]
  | nextBatch res => simp [applyHistoryOp, loadNextHistoryBatch, h]

theorem runHistoryOps_of_stuck (st : GitStoreState) (ops : List HistoryOp)
    (h : st.hasRequest LoadingHistoryRequestKey = true) :
    runHistoryOps st ops = st := by
  induction ops with
  | nil => rfl
  | cons op rest ih =>
    show runHistoryOps (applyHistoryOp st op) rest = st
    rw [applyHistoryOp_of_stuck st op h, ih]

theorem loadHistory_error_eq (st : GitStoreState) (e : String)
    (hkey : st.hasRequest LoadingHistoryRequestKey = false) :
    loadHistory st (.error e) =
      { st with
          requestsInFight := st.requestsInFight.insert LoadingHistoryRequestKey
          emittedErrors := st.emittedErrors ++ [⟨e, st.repository⟩] } := by
  unfold loadHistory
  rw [if_neg (by simp [hkey])]
  rfl

theorem reconcileHistory_error_eq (st : GitStoreState) (mergeBase e : String)
    (hkey : st.hasRequest LoadingHistoryRequestKey = false)
    (hne : st.history ≠ []) :
    reconcileHistory st mergeBase (.error e) =
      { st with
          requestsInFight := st.requestsInFight.insert LoadingHistoryRequestKey
          emittedErrors := st.emittedErrors ++ [⟨e, st.repository⟩] } := by
  unfold reconcileHistory
  rw [if_neg (by simp [hne]), if_neg (by simp [hkey])]
  rfl

/-- C9: when the commit query of `loadHistory` (or of `reconcileHistory`, on
a non-empty history) fails, the method returns with the `history` request
key still in the in-flight set and the history unmodified; from then on
every sequence of `loadHistory` / `reconcileHistory` /
`loadNextHistoryBatch` calls on the instance leaves the state exactly as it
is — each returns immediately at its request-key guard. -/
theorem failed_history_load_wedges_store
    (st : GitStoreState) (e e' mergeBase : String)
    (hkey : st.hasRequest LoadingHistoryRequestKey = false) :
    ((loadHistory st (.error e)).hasRequest LoadingHistoryRequestKey = true
     ∧ (loadHistory st (.error e)).history = st.history
     ∧ ∀ ops : List HistoryOp,
         runHistoryOps (loadHistory st (.error e)) ops = loadHistory st (.error e))
    ∧ (st.history ≠ [] →
       (reconcileHistory st mergeBase (.error e')).hasRequest
           LoadingHistoryRequestKey = true
       ∧ (reconcileHistory st mergeBase (.error e')).history = st.history
       ∧ ∀ ops : List HistoryOp,
           runHistoryOps (reconcileHistory st mergeBase (.error e')) ops
             = reconcileHistory st mergeBase (.error e')) := by
  have hstuck : ∀ s : GitStoreState,
      s.requestsInFight = st.requestsInFight.insert LoadingHistoryRequestKey →
      s.hasRequest LoadingHistoryRequestKey = true := by
    intro s hs
    have := st.addRequest_hasRequest_self LoadingHistoryRequestKey
    simp only [GitStoreState.hasRequest, GitStoreState.addRequest] at this ⊢
    rw [hs]
    exact this
  constructor
  · rw [loadHistory_error_eq st e hkey]
    refine ⟨hstuck _ rfl, rfl, fun ops => runHistoryOps_of_stuck _ ops (hstuck _ rfl)⟩
  · intro hne
    rw [reconcileHistory_error_eq st mergeBase e' hkey hne]
    refine ⟨hstuck _ rfl, rfl, fun ops => runHistoryOps_of_stuck _ ops (hstuck _ rfl)⟩

/-- Witness for C9: a store with history `[c5]` and an idle request set is
wedged by one failing `loadHistory`; a subsequent successful `loadHistory`
and `loadNextHistoryBatch` both leave it untouched. -/
theorem failed_history_load_wedges_store_witness :
    (loadHistory ⟨"/repo", [], ["c5"], [], .unknown, none, []⟩
        (.error "fatal: boom")).history = ["c5"]
    ∧ runHistoryOps
        (loadHistory ⟨"/repo", [], ["c5"], [], .unknown, none, []⟩
          (.error "fatal: boom"))
        [.load (.ok [⟨"c9"⟩]), .nextBatch (.ok [⟨"c4"⟩])]
      = loadHistory ⟨"/repo", [], ["c5"], [], .unknown, none, []⟩
          (.error "fatal: boom") := by
  have h := failed_history_load_wedges_store
    ⟨"/repo", [], ["c5"], [], .unknown, none, []⟩
    "fatal: boom" "x" "mb" (by decide)
  exact ⟨h.1.2.1, h.1.2.2 [.load (.ok [⟨"c9"⟩]), .nextBatch (.ok [⟨"c4"⟩])]⟩

/-- Counterexample to C4: a store whose last published tip is
`Detached c0ffee`. When the status query fails, `loadStatus` catches and
emits the error but does not publish an `Unknown` tip: the tip field is left
at its previous (stale) value `Detached c0ffee`. -/
theorem loadStatus_failure_counterexample :
    loadStatus ⟨"/repo", [], [], [], .detached "c0ffee", none, []⟩
        (.error "fatal: unable to read status") (.ok ⟨"beef"⟩)
      = .ok (⟨"/repo", [], [], [], .detached "c0ffee", none,
          [⟨"fatal: unable to read status", "/repo"⟩]⟩, none)
    ∧ Tip.detached "c0ffee" ≠ Tip.unknown := by
  exact ⟨rfl, by decide⟩

/-- C4 (amended): any failure of the status query during a status load is
caught and emitted through the error channel wrapped with the repository
context, and `loadStatus` returns `null` leaving the previously published
tip unchanged — it does not degrade the tip to `Unknown`. (`Unknown` is
published only when a *successful* status reports neither a current branch
nor a current tip; a failure to load the tip commit instead raises an
exception.) -/
theorem loadStatus_failure_emits_and_keeps_tip
    (st : GitStoreState) (e : String) (getCommitRes : Except String Commit) :
    loadStatus st (.error e) getCommitRes =
      .ok ({ st with emittedErrors := st.emittedErrors ++ [⟨e, st.repository⟩] },
        none) := by
  rfl

theorem getRepositoryState_update_self (app : AppState) (r : Repository)
    (fn : IRepositoryState → IRepositoryState) :
    getRepositoryState (updateRepositoryState app r fn) r
      = fn (getRepositoryState app r) := by
  simp [getRepositoryState, updateRepositoryState]

theorem getRepositoryState_update_ne (app : AppState) (r r' : Repository)
    (fn : IRepositoryState → IRepositoryState) (h : r'.hash ≠ r.hash) :
    getRepositoryState (updateRepositoryState app r fn) r'
      = getRepositoryState app r' := by
  simp [getRepositoryState, updateRepositoryState, h]

/-- C2: the push/pull/fetch mutual-exclusion gate. While
`isPushPullFetchInProgress` is set for a repository, a further
`withPushPull` call on it returns at once: the store state is untouched, no
error is raised and the body — which contains every Git invocation of the
operation — is never invoked (nothing is queued). A repository with a
different state key whose own flag is clear proceeds normally: its body is
invoked even while the first repository's operation is in flight. -/
theorem withPushPull_mutual_exclusion
    (app : AppState) (r r' : Repository)
    (fn fn' : AppState → AppState × Option String)
    (hflag : (getRepositoryState app r).isPushPullFetchInProgress = true) :
    withPushPull app r fn = ⟨app, none, false⟩
    ∧ (r'.hash ≠ r.hash →
        (getRepositoryState app r').isPushPullFetchInProgress = false →
        (withPushPull app r' fn').fnInvoked = true) := by
  constructor
  · simp [withPushPull, hflag]
  · intro _ hflag'
    rw [withPushPull, if_neg (by simp [hflag'])]

/-- Witness for C2: repository `a` (id 1) is mid-operation, repository `b`
(id 2) is idle; a second operation on `a` is dropped with the state
untouched, while an operation on `b` still runs its body. -/
theorem withPushPull_mutual_exclusion_witness :
    (withPushPull
       ⟨fun h =>
          if h == Repository.hash ⟨"a", 1⟩ then
            some { getInitialRepositoryState with isPushPullFetchInProgress := true }
          else none⟩
       ⟨"a", 1⟩ (fun a => (a, none))).fnInvoked = false
    ∧ (withPushPull
       ⟨fun h =>
          if h == Repository.hash ⟨"a", 1⟩ then
            some { getInitialRepositoryState with isPushPullFetchInProgress := true }
          else none⟩
       ⟨"b", 2⟩ (fun a => (a, none))).fnInvoked = true := by
  have h := withPushPull_mutual_exclusion
    ⟨fun h =>
       if h == Repository.hash ⟨"a", 1⟩ then
         some { getInitialRepositoryState with isPushPullFetchInProgress := true }
       else none⟩
    ⟨"a", 1⟩ ⟨"b", 2⟩ (fun a => (a, none)) (fun a => (a, none))
    (by decide)
  exact ⟨by rw [h.1], h.2 (by decide) (by decide)⟩

/-- C10: whenever the gate is clear and `withPushPull` actually runs its
body, the repository's `isPushPullFetchInProgress` flag is `false` again in
the resulting state — for every body, including one that throws (the
`finally` clause clears the flag before the error is re-raised). A failed
push, pull or fetch therefore never leaves the repository gated. -/
theorem withPushPull_always_resets_flag
    (app : AppState) (r : Repository)
    (fn : AppState → AppState × Option String)
    (hflag : (getRepositoryState app r).isPushPullFetchInProgress = false) :
    (getRepositoryState (withPushPull app r fn).state r).isPushPullFetchInProgress
        = false
    ∧ (withPushPull app r fn).fnInvoked = true := by
  rw [withPushPull, if_neg (by simp [hflag])]
  rcases hfn : fn (updateRepositoryState app r
    (fun s => { s with isPushPullFetchInProgress := true })) with ⟨app2, err⟩
  exact ⟨by rw [getRepositoryState_update_self], rfl⟩

/-- Witness for C10: an idle repository `a` run through the gate with a body
that throws still ends with the flag cleared. -/
theorem withPushPull_always_resets_flag_witness :
    (getRepositoryState
        (withPushPull ⟨fun _ => none⟩ ⟨"a", 1⟩
          (fun a => (a, some "fatal: push aborted"))).state
        ⟨"a", 1⟩).isPushPullFetchInProgress = false := by
  exact (withPushPull_always_resets_flag ⟨fun _ => none⟩ ⟨"a", 1⟩
    (fun a => (a, some "fatal: push aborted"))
    (by simp [getRepositoryState, getInitialRepositoryState])).1

/-- C3: staleness check of the working-directory diff load. A load started
while exactly the file `fid` was selected (and found) applies nothing when,
by the time the diff arrives, the selection is no longer exactly `[fid]` —
whether no file, several files, or a different single file is now selected,
the method returns the post-await repository state as is: its `diff` and
`workingDirectory` are untouched by the completion. -/
theorem stale_diff_result_discarded
    (stateBeforeLoad stateAfterLoad : IRepositoryState)
    (getWorkingDirectoryDiff : WorkingDirectoryFileChange → Diff)
    (fid : String) (f : WorkingDirectoryFileChange)
    (hsel : stateBeforeLoad.changesState.selectedFileIDs = [fid])
    (hfound : stateBeforeLoad.changesState.workingDirectory.findFileWithID fid
        = some f)
    (hstale : stateAfterLoad.changesState.selectedFileIDs ≠ [fid]) :
    updateChangesDiffForCurrentSelection stateBeforeLoad
        getWorkingDirectoryDiff stateAfterLoad = stateAfterLoad := by
  unfold updateChangesDiffForCurrentSelection
  simp only [hsel, hfound]
  cases hafter : stateAfterLoad.changesState.selectedFileIDs with
  | nil => rfl
  | cons g tail =>
    cases tail with
    | nil =>
      have hne : g ≠ fid := by
        intro hg
        exact hstale (by rw [hafter, hg])
      simp [hne]
    | cons g' tail' => rfl

/-- Witness for C3: file `A` is selected when the load starts; by completion
the selection has moved to file `B`; the state after the await (B selected,
no diff) is returned unchanged — A's freshly loaded diff is dropped. -/
theorem stale_diff_result_discarded_witness :
    updateChangesDiffForCurrentSelection
        ⟨⟨⟨[⟨"A", "a.txt", ⟨[1]⟩⟩, ⟨"B", "b.txt", ⟨[]⟩⟩]⟩, ["A"], none⟩,
         ⟨.unknown, none, []⟩, false⟩
        (fun _ => .text [⟨3, [⟨true⟩]⟩])
        ⟨⟨⟨[⟨"A", "a.txt", ⟨[1]⟩⟩, ⟨"B", "b.txt", ⟨[]⟩⟩]⟩, ["B"], none⟩,
         ⟨.unknown, none, []⟩, false⟩
      = ⟨⟨⟨[⟨"A", "a.txt", ⟨[1]⟩⟩, ⟨"B", "b.txt", ⟨[]⟩⟩]⟩, ["B"], none⟩,
         ⟨.unknown, none, []⟩, false⟩ := by
  exact stale_diff_result_discarded
    ⟨⟨⟨[⟨"A", "a.txt", ⟨[1]⟩⟩, ⟨"B", "b.txt", ⟨[]⟩⟩]⟩, ["A"], none⟩,
     ⟨.unknown, none, []⟩, false⟩
    ⟨⟨⟨[⟨"A", "a.txt", ⟨[1]⟩⟩, ⟨"B", "b.txt", ⟨[]⟩⟩]⟩, ["B"], none⟩,
     ⟨.unknown, none, []⟩, false⟩
    (fun _ => .text [⟨3, [⟨true⟩]⟩])
    "A" ⟨"A", "a.txt", ⟨[1]⟩⟩ rfl (by decide) (by decide)

theorem formatAsLocalRef_injective (a b : String)
    (h : formatAsLocalRef a = formatAsLocalRef b) : a = b := by
  unfold formatAsLocalRef at h
  have hd := congrArg String.data h
  simp only [String.data_append] at hd
  exact String.ext (List.append_cancel_left hd)

theorem fastForwardBranches_eq_scan_of_lt
    (state : IRepositoryState) (getBranchAheadBehind : Branch → Option AheadBehind)
    (h : (eligibleBranchesIn state).length < FastForwardBranchesThreshold) :
    fastForwardBranches state getBranchAheadBehind
      = fastForwardScan getBranchAheadBehind (eligibleBranchesIn state) := by
  simp only [fastForwardBranches]
  rw [if_neg (by omega)]

theorem fastForwardBranches_eq_default_of_ge
    (state : IRepositoryState) (getBranchAheadBehind : Branch → Option AheadBehind)
    (h : FastForwardBranchesThreshold ≤ (eligibleBranchesIn state).length) :
    fastForwardBranches state getBranchAheadBehind
      = fastForwardScan getBranchAheadBehind
          (match state.branchesState.defaultBranch with
           | some defaultBranch =>
             if eligibleForFastForward defaultBranch
                 (currentBranchNameOf state.branchesState.tip) then [defaultBranch]
             else []
           | none => []) := by
  simp only [fastForwardBranches]
  rw [if_pos h]

theorem mem_fastForwardScan
    (getBranchAheadBehind : Branch → Option AheadBehind) (branches : List Branch)
    (b : Branch) (n : Nat) (hb : b ∈ branches)
    (hab : getBranchAheadBehind b = some ⟨0, n⟩) (hn : 0 < n) :
    branchFastForwardUpdate b ∈ fastForwardScan getBranchAheadBehind branches := by
  unfold fastForwardScan
  exact List.mem_filterMap.mpr ⟨b, hb, by simp [hab, hn]⟩

theorem of_mem_fastForwardScan
    (getBranchAheadBehind : Branch → Option AheadBehind) (branches : List Branch)
    (u : RefUpdate) (hu : u ∈ fastForwardScan getBranchAheadBehind branches) :
    ∃ b ∈ branches, ∃ ab, getBranchAheadBehind b = some ab ∧ ab.ahead = 0
      ∧ 0 < ab.behind ∧ u = branchFastForwardUpdate b := by
  unfold fastForwardScan at hu
  rcases List.mem_filterMap.mp hu with ⟨b, hb, hfb⟩
  rcases hab : getBranchAheadBehind b with _ | ab
  · rw [hab] at hfb
    exact absurd hfb (by simp)
  · rw [hab] at hfb
    by_cases hc : ab.ahead = 0 ∧ 0 < ab.behind
    · simp only [hc, and_self, if_true, Option.some.injEq] at hfb
      exact ⟨b, hb, ab, hab, hc.1, hc.2, hfb.symm⟩
    · simp [hc] at hfb

/-- A stale local tracking branch (`bN`, upstream `origin/bN`), used to
build a repository with exactly twenty fast-forward candidates. -/
def ffBranch (i : Nat) : Branch :=
  ⟨"b" ++ toString i, some ("origin/b" ++ toString i), ⟨"s" ++ toString i⟩,
   .local⟩

/-- A repository state with exactly twenty eligible fast-forward candidates,
no checked-out branch and no default branch. -/
def ffTwentyState : IRepositoryState :=
  ⟨⟨⟨[]⟩, [], none⟩, ⟨.unknown, none, (List.range 20).map ffBranch⟩, false⟩

/-- Like `ffTwentyState`, but with `b0` as the default branch. -/
def ffTwentyDefaultState : IRepositoryState :=
  ⟨⟨⟨[]⟩, [], none⟩,
   ⟨.unknown, some (ffBranch 0), (List.range 20).map ffBranch⟩, false⟩

/-- An ahead/behind oracle under which every branch is strictly behind its
upstream with no local-only commits. -/
def ffOracle : Branch → Option AheadBehind := fun _ => some ⟨0, 3⟩

/-- Counterexample to C6: with exactly 20 eligible candidates — a count the
claim says is still scanned in full (`at most the threshold of 20`) — the
code already degrades: the guard is `length >= 20`, so with no default
branch nothing at all is fast-forwarded, although a full scan would have
fast-forwarded every candidate. -/
theorem fastForward_threshold_boundary_counterexample :
    (eligibleBranchesIn ffTwentyState).length = 20
    ∧ fastForwardBranches ffTwentyState ffOracle = []
    ∧ fastForwardScan ffOracle (eligibleBranchesIn ffTwentyState) ≠ [] := by
  exact ⟨by decide, by decide, by decide⟩

/-- C6 (amended): the full per-branch scan runs only while the eligible
count is strictly below the threshold of 20; once the count reaches 20
(`>=`, not `>`), the scan degrades: any update performed is the default
branch's, and a default branch that is itself eligible and strictly behind
with no local commits is still fast-forwarded, alone. -/
theorem fastForwardBranches_threshold
    (state : IRepositoryState) (getAB : Branch → Option AheadBehind) :
    ((eligibleBranchesIn state).length < FastForwardBranchesThreshold →
      ∀ b ∈ eligibleBranchesIn state, ∀ n, getAB b = some ⟨0, n⟩ → 0 < n →
        branchFastForwardUpdate b ∈ fastForwardBranches state getAB)
    ∧ (FastForwardBranchesThreshold ≤ (eligibleBranchesIn state).length →
      (∀ u ∈ fastForwardBranches state getAB,
        ∃ db, state.branchesState.defaultBranch = some db
          ∧ u = branchFastForwardUpdate db)
      ∧ (∀ db, state.branchesState.defaultBranch = some db →
          eligibleForFastForward db
            (currentBranchNameOf state.branchesState.tip) = true →
          ∀ n, getAB db = some ⟨0, n⟩ → 0 < n →
          fastForwardBranches state getAB = [branchFastForwardUpdate db])) := by
  constructor
  · intro hlt b hb n hab hn
    rw [fastForwardBranches_eq_scan_of_lt state getAB hlt]
    exact mem_fastForwardScan getAB _ b n hb hab hn
  · intro hge
    constructor
    · intro u hu
      rw [fastForwardBranches_eq_default_of_ge state getAB hge] at hu
      cases hdb : state.branchesState.defaultBranch with
      | none => simp [hdb, fastForwardScan] at hu
      | some db =>
        by_cases he : eligibleForFastForward db
            (currentBranchNameOf state.branchesState.tip) = true
        · simp only [hdb, he, if_true] at hu
          rcases of_mem_fastForwardScan getAB [db] u hu with
            ⟨b, hb, ab, hab, h0, hpos, hub⟩
          have hbd : b = db := by simpa using hb
          exact ⟨db, rfl, hbd ▸ hub⟩
        · simp [hdb, he, fastForwardScan] at hu
    · intro db hdb he n hab hn
      rw [fastForwardBranches_eq_default_of_ge state getAB hge]
      simp [hdb, he, fastForwardScan, hab, hn]

/-- Witness for C6: below the threshold (a two-branch repository) the
eligible branch `alpha` is fast-forwarded; at the threshold (twenty
candidates with default branch `b0`) the run performs exactly the default
branch's update. -/
theorem fastForwardBranches_threshold_witness :
    branchFastForwardUpdate ⟨"alpha", some "origin/alpha", ⟨"sa"⟩, .local⟩
        ∈ fastForwardBranches
            ⟨⟨⟨[]⟩, [], none⟩,
             ⟨.unknown, none,
              [⟨"alpha", some "origin/alpha", ⟨"sa"⟩, .local⟩]⟩, false⟩
            ffOracle
    ∧ fastForwardBranches ffTwentyDefaultState ffOracle
        = [branchFastForwardUpdate (ffBranch 0)] := by
  constructor
  · exact (fastForwardBranches_threshold
      ⟨⟨⟨[]⟩, [], none⟩,
       ⟨.unknown, none,
        [⟨"alpha", some "origin/alpha", ⟨"sa"⟩, .local⟩]⟩, false⟩
      ffOracle).1 (by decide)
      ⟨"alpha", some "origin/alpha", ⟨"sa"⟩, .local⟩ (by decide)
      3 (by decide) (by decide)
  · exact ((fastForwardBranches_threshold ffTwentyDefaultState ffOracle).2
      (by decide)).2 (ffBranch 0) rfl (by decide) 3 (by decide) (by decide)

/-- Counterexample to C5: in a reconciliation run over twenty candidates,
the branch `b0` — non-checked-out, local, with an upstream, ahead 0 and
behind 3 — receives no ref update, because the degraded threshold mode has
suppressed the whole scan. -/
theorem fastForward_behind_branch_skipped_counterexample :
    ffBranch 0 ∈ ffTwentyState.branchesState.allBranches
    ∧ eligibleForFastForward (ffBranch 0)
        (currentBranchNameOf ffTwentyState.branchesState.tip) = true
    ∧ ffOracle (ffBranch 0) = some ⟨0, 3⟩
    ∧ fastForwardBranches ffTwentyState ffOracle = [] := by
  exact ⟨by decide, by decide, by decide, by decide⟩

/-- C5 (amended): in a reconciliation run that is not in the degraded
threshold mode (fewer than 20 eligible candidates), every non-checked-out
local branch with an upstream whose ahead/behind lookup yields ahead 0 and
behind positive has its local ref updated — an `updateRef` of
`refs/heads/<name>` from the branch tip to the upstream ref is performed;
and in any run, a branch whose lookup yields ahead at least 1 is never the
subject of an update of its local ref (assuming branch names are unique in
the branch list). -/
theorem fastForward_updates_behind_only
    (state : IRepositoryState) (getAB : Branch → Option AheadBehind)
    (hcount : (eligibleBranchesIn state).length < FastForwardBranchesThreshold) :
    (∀ b ∈ state.branchesState.allBranches,
      eligibleForFastForward b
          (currentBranchNameOf state.branchesState.tip) = true →
      ∀ n, getAB b = some ⟨0, n⟩ → 0 < n →
        branchFastForwardUpdate b ∈ fastForwardBranches state getAB)
    ∧ (∀ b ∈ state.branchesState.allBranches,
        (∀ b' ∈ state.branchesState.allBranches, b'.name = b.name → b' = b) →
        ∀ ab, getAB b = some ab → 1 ≤ ab.ahead →
        ∀ u ∈ fastForwardBranches state getAB,
          u.ref ≠ formatAsLocalRef b.name) := by
  constructor
  · intro b hb he n hab hn
    rw [fastForwardBranches_eq_scan_of_lt state getAB hcount]
    refine mem_fastForwardScan getAB _ b n ?_ hab hn
    exact List.mem_filter.mpr ⟨hb, he⟩
  · intro b hb huniq ab hab hahead u hu href
    rw [fastForwardBranches_eq_scan_of_lt state getAB hcount] at hu
    rcases of_mem_fastForwardScan getAB _ u hu with
      ⟨b', hb', ab', hab', h0, hpos, hub⟩
    have hb'mem : b' ∈ state.branchesState.allBranches :=
      (List.mem_filter.mp hb').1
    have hname : b'.name = b.name := by
      apply formatAsLocalRef_injective
      rw [← href, hub]
      rfl
    have hbb : b' = b := huniq b' hb'mem hname
    rw [hbb, hab] at hab'
    have : ab = ab' := Option.some_inj.mp hab'.symm ▸ rfl
    rw [Option.some_inj.mp hab'] at hahead
    omega

/-- Witness for C5: `alpha` (ahead 0, behind 3) is fast-forwarded while
`beta` (ahead 1, behind 3) is untouched by the single performed update. -/
theorem fastForward_updates_behind_only_witness :
    branchFastForwardUpdate ⟨"alpha", some "origin/alpha", ⟨"sa"⟩, .local⟩
        ∈ fastForwardBranches
            ⟨⟨⟨[]⟩, [], none⟩,
             ⟨.unknown, none,
              [⟨"alpha", some "origin/alpha", ⟨"sa"⟩, .local⟩,
               ⟨"beta", some "origin/beta", ⟨"sb"⟩, .local⟩]⟩, false⟩
            (fun b => if b.name == "alpha" then some ⟨0, 3⟩ else some ⟨1, 3⟩)
    ∧ (branchFastForwardUpdate
          ⟨"alpha", some "origin/alpha", ⟨"sa"⟩, .local⟩).ref
        ≠ formatAsLocalRef "beta" := by
  have h := fastForward_updates_behind_only
    ⟨⟨⟨[]⟩, [], none⟩,
     ⟨.unknown, none,
      [⟨"alpha", some "origin/alpha", ⟨"sa"⟩, .local⟩,
       ⟨"beta", some "origin/beta", ⟨"sb"⟩, .local⟩]⟩, false⟩
    (fun b => if b.name == "alpha" then some ⟨0, 3⟩ else some ⟨1, 3⟩)
    (by decide)
  refine ⟨h.1 ⟨"alpha", some "origin/alpha", ⟨"sa"⟩, .local⟩ (by decide)
      (by decide) 3 (by decide) (by decide), ?_⟩
  refine h.2 ⟨"beta", some "origin/beta", ⟨"sb"⟩, .local⟩ (by decide)
      (by decide) ⟨1, 3⟩ (by decide) (by decide)
      (branchFastForwardUpdate ⟨"alpha", some "origin/alpha", ⟨"sa"⟩, .local⟩)
      ?_
  exact h.1 ⟨"alpha", some "origin/alpha", ⟨"sa"⟩, .local⟩ (by decide)
      (by decide) 3 (by decide) (by decide)

theorem chain'_le_append_of_bound (l1 l2 : List ℚ) (c : ℚ)
    (h1 : l1.Chain' (· ≤ ·)) (h2 : l2.Chain' (· ≤ ·))
    (hb1 : ∀ x ∈ l1, x ≤ c) (hb2 : ∀ y ∈ l2, c ≤ y) :
    (l1 ++ l2).Chain' (· ≤ ·) := by
  rw [List.chain'_append]
  refine ⟨h1, h2, fun x hx y hy => ?_⟩
  exact le_trans (hb1 x (List.mem_of_mem_getLast? hx))
    (hb2 y (List.mem_of_mem_head? hy))

/-- Counterexample to C8: the composite weights `performPush` actually uses
are `9/14 ≈ 64.3%` for the push phase, `9/35 ≈ 25.7%` for the post-push
fetch phase and `1/10 = 10%` for the refresh and fast-forward phase — the
push share is more than ten points above the claimed ≈54% and the refresh
share fifteen points below the claimed ≈25%. -/
theorem performPush_weights_counterexample :
    pushPhaseWeight = 9/14 ∧ pushFetchPhaseWeight = 9/35
    ∧ pushRefreshWeight = 1/10
    ∧ 54/100 + 1/10 < pushPhaseWeight
    ∧ pushRefreshWeight < 25/100 - 1/10 := by
  refine ⟨?_, ?_, rfl, ?_, ?_⟩ <;>
    norm_num [pushPhaseWeight, pushFetchPhaseWeight, pushScale,
      pushRefreshWeight]

/-- C8 (amended): on the valid-tip path of `performPush` the composite
weights are exactly `9/14` (push), `9/35` (fetch) and `1/10` (refresh and
fast-forward, of which the reported values reach the `9/14 + 9/35 = 9/10`
refresh start and the `0.95` fast-forward step), and given that each
phase's own progress reports are nondecreasing within `[0, 1]`, the whole
reported sequence never decreases. -/
theorem performPush_progress_monotone
    (pushReports fetchReports : List ℚ)
    (hp : pushReports.Chain' (· ≤ ·))
    (hp01 : ∀ v ∈ pushReports, 0 ≤ v ∧ v ≤ 1)
    (hf : fetchReports.Chain' (· ≤ ·))
    (hf01 : ∀ v ∈ fetchReports, 0 ≤ v ∧ v ≤ 1) :
    (performPushProgressValues pushReports fetchReports).Chain' (· ≤ ·)
    ∧ pushPhaseWeight = 9/14 ∧ pushFetchPhaseWeight = 9/35
    ∧ pushRefreshWeight = 1/10 := by
  have hw : (0:ℚ) ≤ pushPhaseWeight := by
    norm_num [pushPhaseWeight, pushScale, pushRefreshWeight]
  have hfw : (0:ℚ) ≤ pushFetchPhaseWeight := by
    norm_num [pushFetchPhaseWeight, pushScale, pushRefreshWeight]
  have hrw : (0:ℚ) ≤ pushRefreshWeight * (1/2) := by
    norm_num [pushRefreshWeight]
  refine ⟨?_, by norm_num [pushPhaseWeight, pushScale, pushRefreshWeight],
    by norm_num [pushFetchPhaseWeight, pushScale, pushRefreshWeight], rfl⟩
  have hA : (pushReports.map (fun v => pushPhaseWeight * v)).Chain' (· ≤ ·) := by
    rw [List.chain'_map]
    exact hp.imp (fun a b hab => mul_le_mul_of_nonneg_left hab hw)
  have hA_lo : ∀ x ∈ pushReports.map (fun v => pushPhaseWeight * v), 0 ≤ x := by
    intro x hx
    rcases List.mem_map.mp hx with ⟨v, hv, rfl⟩
    exact mul_nonneg hw (hp01 v hv).1
  have hA_hi : ∀ x ∈ pushReports.map (fun v => pushPhaseWeight * v),
      x ≤ pushPhaseWeight := by
    intro x hx
    rcases List.mem_map.mp hx with ⟨v, hv, rfl⟩
    calc pushPhaseWeight * v ≤ pushPhaseWeight * 1 :=
          mul_le_mul_of_nonneg_left (hp01 v hv).2 hw
      _ = pushPhaseWeight := mul_one _
  have hB : (fetchReports.map
      (fun v => pushPhaseWeight + v * pushFetchPhaseWeight)).Chain' (· ≤ ·) := by
    rw [List.chain'_map]
    exact hf.imp (fun a b hab =>
      add_le_add_left (mul_le_mul_of_nonneg_right hab hfw) _)
  have hB_lo : ∀ x ∈ fetchReports.map
      (fun v => pushPhaseWeight + v * pushFetchPhaseWeight),
      pushPhaseWeight ≤ x := by
    intro x hx
    rcases List.mem_map.mp hx with ⟨v, hv, rfl⟩
    exact le_add_of_nonneg_right (mul_nonneg (hf01 v hv).1 hfw)
  have hB_hi : ∀ x ∈ fetchReports.map
      (fun v => pushPhaseWeight + v * pushFetchPhaseWeight),
      x ≤ pushPhaseWeight + pushFetchPhaseWeight := by
    intro x hx
    rcases List.mem_map.mp hx with ⟨v, hv, rfl⟩
    have : v * pushFetchPhaseWeight ≤ pushFetchPhaseWeight :=
      mul_le_of_le_one_left hfw (hf01 v hv).2
    linarith
  have hC : ([pushPhaseWeight + pushFetchPhaseWeight,
      pushPhaseWeight + pushFetchPhaseWeight
        + pushRefreshWeight * (1/2)]).Chain' (· ≤ ·) := by
    refine List.chain'_cons.mpr ⟨le_add_of_nonneg_right hrw, ?_⟩
    exact List.chain'_singleton _
  have hC_lo : ∀ x ∈ [pushPhaseWeight + pushFetchPhaseWeight,
      pushPhaseWeight + pushFetchPhaseWeight + pushRefreshWeight * (1/2)],
      pushPhaseWeight + pushFetchPhaseWeight ≤ x := by
    intro x hx
    rcases List.mem_cons.mp hx with rfl | hx
    · exact le_refl _
    · rcases List.mem_cons.mp hx with rfl | hx
      · exact le_add_of_nonneg_right hrw
      · exact absurd hx (List.not_mem_nil x)
  have hBC := chain'_le_append_of_bound _ _
    (pushPhaseWeight + pushFetchPhaseWeight) hB hC hB_hi hC_lo
  have hBC_lo : ∀ y ∈ fetchReports.map
        (fun v => pushPhaseWeight + v * pushFetchPhaseWeight)
      ++ [pushPhaseWeight + pushFetchPhaseWeight,
          pushPhaseWeight + pushFetchPhaseWeight + pushRefreshWeight * (1/2)],
      pushPhaseWeight ≤ y := by
    intro y hy
    rcases List.mem_append.mp hy with hy | hy
    · exact hB_lo y hy
    · exact le_trans (le_add_of_nonneg_right hfw) (hC_lo y hy)
  have hABC := chain'_le_append_of_bound _ _ pushPhaseWeight hA hBC hA_hi hBC_lo
  have hall_lo : ∀ y ∈ pushReports.map (fun v => pushPhaseWeight * v)
      ++ (fetchReports.map (fun v => pushPhaseWeight + v * pushFetchPhaseWeight)
        ++ [pushPhaseWeight + pushFetchPhaseWeight,
            pushPhaseWeight + pushFetchPhaseWeight + pushRefreshWeight * (1/2)]),
      (0:ℚ) ≤ y := by
    intro y hy
    rcases List.mem_append.mp hy with hy | hy
    · exact hA_lo y hy
    · exact le_trans hw (hBC_lo y hy)
  unfold performPushProgressValues
  rw [← List.singleton_append, List.append_assoc]
  refine chain'_le_append_of_bound _ _ 0 (List.chain'_singleton _) hABC ?_ hall_lo
  intro x hx
  rcases List.mem_cons.mp hx with rfl | hx
  · exact le_refl _
  · exact absurd hx (List.not_mem_nil x)

/-- Witness for C8: concrete nondecreasing phase reports
(`[0, 1/2, 1]` for push, `[1/4, 1]` for fetch) yield a nondecreasing
composite sequence. -/
theorem performPush_progress_monotone_witness :
    (performPushProgressValues [0, 1/2, 1] [1/4, 1]).Chain' (· ≤ ·) := by
  exact (performPush_progress_monotone [0, 1/2, 1] [1/4, 1]
    (by norm_num) (by norm_num) (by norm_num) (by norm_num)).1
